import Mathlib

/-!
The file transfer core of grpc-serv-v2.

A shallow embedding of `server/fileops.go` and `server/server.go`:
the filename validator, the storage accessor and the three handlers
`UploadFile`, `ListFiles` and `DownloadFile`, followed by the properties
of the transfer core.

Strings are Lean strings (the sequence of runes Go's `regexp` iterates over),
file contents are byte lists, and every call that leaves the process
(the limiter, the stream, the file system) takes its outcome from an
explicit environment record and leaves an entry in a trace.
-/

namespace GrpcServ

/-! ## The regular expression of `fileNamePattern` -/

/-- The fragment of Go's `regexp/syntax` that `fileNamePattern` uses. -/
inductive Regexp where
  | beginText : Regexp
  | endText : Regexp
  | charClass (ranges : List (Char × Char)) : Regexp
  | plus (sub : Regexp) : Regexp
  | concat (fst snd : Regexp) : Regexp

/-- Membership of a rune in a character class given by inclusive ranges. -/
def inRanges (ranges : List (Char × Char)) (c : Char) : Bool :=
  ranges.any (fun r => decide (r.1 ≤ c) && decide (c ≤ r.2))

/-- A matching position: the number of runes already consumed and the runes
still ahead. -/
abbrev Cursor := Nat × List Char

/-- All cursors at which a match of `re` that starts at the given cursor can
end. The first argument bounds the recursion depth. -/
def Regexp.ends : Nat → Regexp → Cursor → List Cursor
  | 0, _, _ => []
  | _ + 1, .beginText, (i, s) => if i = 0 then [(i, s)] else []
  | _ + 1, .endText, (i, s) => if s.isEmpty then [(i, s)] else []
  | _ + 1, .charClass _, (_, []) => []
  | _ + 1, .charClass ranges, (i, c :: t) =>
      if inRanges ranges c then [(i + 1, t)] else []
  | f + 1, .plus sub, p =>
      let once := Regexp.ends f sub p
      once ++ once.flatMap (Regexp.ends f (.plus sub))
  | f + 1, .concat a b, p => (Regexp.ends f a p).flatMap (Regexp.ends f b)

/-- Number of nodes of a regular expression. -/
def Regexp.size : Regexp → Nat
  | .beginText => 1
  | .endText => 1
  | .charClass _ => 1
  | .plus sub => sub.size + 1
  | .concat a b => a.size + b.size + 1

/-- The cursors at which an unanchored search may start: every offset of the
input, the end included. -/
def startCursors : Nat → List Char → List Cursor
  | i, [] => [(i, [])]
  | i, c :: t => (i, c :: t) :: startCursors (i + 1) t

/-- Go's `(*Regexp).MatchString`: whether the string contains any match. -/
def Regexp.MatchString (re : Regexp) (s : String) : Bool :=
  (startCursors 0 s.toList).any
    (fun p => !(Regexp.ends (s.length + re.size + 1) re p).isEmpty)

/-- The class `[a-zA-Z0-9\-_\.]`. -/
def fileNameClass : List (Char × Char) :=
  [('a', 'z'), ('A', 'Z'), ('0', '9'), ('-', '-'), ('_', '_'), ('.', '.')]

/-- The pattern `^[a-zA-Z0-9\-_\.]+$`. -/
def fileNamePattern : Regexp :=
  .concat .beginText (.concat (.plus (.charClass fileNameClass)) .endText)

/-- Go's `error` values that the handlers and helpers return, abstracted to
what callers can distinguish. -/
inductive FileError where
  | invalidName : FileError
  | io : FileError
  deriving DecidableEq

/-- The function `CheckFileName`: `none` is Go's `nil` error. -/
def CheckFileName (name : String) : Option FileError :=
  if !fileNamePattern.MatchString name then some .invalidName else none

/-! ## Paths -/

/-- Splits a path at every `/`; an input without separator is one element. -/
def splitSep : List Char → List (List Char)
  | [] => [[]]
  | c :: t =>
    if c = '/' then [] :: splitSep t
    else
      match splitSep t with
      | [] => [[c]]
      | e :: es => (c :: e) :: es

/-- One element of the scan of `filepath.Clean`, on the reversed list of the
elements kept so far: empty and `.` elements are dropped, `..` removes the
element before it when there is one to remove, is dropped at the root of a
rooted path and is kept otherwise. -/
def cleanPush (rooted : Bool) (out : List (List Char)) (e : List Char) : List (List Char) :=
  if e = [] ∨ e = ['.'] then out
  else if e = ['.', '.'] then
    match out with
    | top :: below => if top = ['.', '.'] then e :: out else below
    | [] => if rooted then [] else [e]
  else e :: out

/-- Go's `filepath.Clean` for slash-separated paths. -/
def filepath.Clean (path : String) : String :=
  if path = "" then "."
  else
    let cs := path.toList
    let rooted := cs.head? == some '/'
    let out := ((splitSep cs).foldl (cleanPush rooted) []).reverse
    let body := (if rooted then ['/'] else []) ++ List.intercalate ['/'] out
    if body = [] then "." else String.mk body

/-- Go's `filepath.Join` of two elements: the first non-empty element onwards
is joined with `/` and cleaned; two empty elements give the empty string. -/
def filepath.Join (dir name : String) : String :=
  if dir ≠ "" then filepath.Clean (dir ++ "/" ++ name)
  else if name ≠ "" then filepath.Clean name
  else ""

/-! ## Storage, limiters and the trace of outside calls -/

/-- File contents. -/
abbrev Bytes := List UInt8

/-- The three limiters of `server.go`. -/
inductive Limiter where
  | upload : Limiter
  | download : Limiter
  | list : Limiter
  deriving DecidableEq

/-- Calls that leave the handler, in the order they are made. The flag of
`acquire`, `osCreate` and `osOpen` tells whether the call succeeded. -/
inductive Event where
  | acquire (l : Limiter) (ok : Bool) : Event
  | release (l : Limiter) : Event
  | checkFileName (name : String) : Event
  | osCreate (path : String) (ok : Bool) : Event
  | osOpen (path : String) (ok : Bool) : Event
  | fileWrite (path : String) (data : Bytes) : Event
  | fileClose (path : String) : Event
  | send (chunk : Bytes) (ok : Bool) : Event
  deriving DecidableEq

/-- Go's `semaphore.Weighted`: capacity and tickets currently held. -/
structure Weighted where
  size : Nat
  cur : Nat
  deriving DecidableEq

/-- The call `semaphore.NewWeighted`. -/
def semaphore.NewWeighted (n : Nat) : Weighted := ⟨n, 0⟩

/-- One ticket of `Acquire(ctx, 1)`. Whether the call is granted (it may wait
for other operations and give up when the context is cancelled) is decided
outside; a granted call holds one more ticket, a refused one holds nothing. -/
def Weighted.Acquire (s : Weighted) (granted : Bool) : Bool × Weighted :=
  if granted then (true, { s with cur := s.cur + 1 }) else (false, s)

/-- The call `Release(1)`. -/
def Weighted.Release (s : Weighted) : Weighted := { s with cur := s.cur - 1 }

def storageDir : String := "storage"
def maxConcurrentUploads : Nat := 10
def maxConcurrentDownloads : Nat := 10
def maxListRequests : Nat := 100

/-- The state shared by all operations: the files by path, the three
package-level limiters, and the trace of calls made so far. -/
structure World where
  files : String → Option Bytes
  uploadLimiter : Weighted
  downloadLimiter : Weighted
  listLimiter : Weighted
  trace : List Event

/-- The state at start-up over a given file system. -/
def World.init (files : String → Option Bytes) : World :=
  { files := files
    uploadLimiter := semaphore.NewWeighted maxConcurrentUploads
    downloadLimiter := semaphore.NewWeighted maxConcurrentDownloads
    listLimiter := semaphore.NewWeighted maxListRequests
    trace := [] }

/-- Appends one call to the trace. -/
def World.emit (w : World) (e : Event) : World := { w with trace := w.trace ++ [e] }

/-- The calls made since an earlier state. -/
def World.since (w0 w : World) : List Event := w.trace.drop w0.trace.length

/-- An open `*os.File`: the path it was opened at, its file offset, and whether
it is open on a directory. -/
structure File where
  path : String
  offset : Nat
  dir : Bool
  deriving DecidableEq

/-- The call `os.Create`: creates the file or truncates an existing one, unless
the file system refuses, as it does when the path names a directory. -/
def os.Create (fails : Bool) (path : String) (w : World) : Except FileError File × World :=
  if fails then (.error .io, w.emit (.osCreate path false))
  else
    (.ok ⟨path, 0, false⟩,
      { w with files := Function.update w.files path (some []) }.emit (.osCreate path true))

/-- The call `os.Open`. A stored file opens unless the file system refuses.
Where no file is stored, the call fails, unless the path names a directory
(`isDir`, as for `.` and for the storage root itself) and the file system does
not refuse: a directory opens like a file. -/
def os.Open (fails isDir : Bool) (path : String) (w : World) :
    Except FileError File × World :=
  match w.files path with
  | none =>
    if isDir && !fails then (.ok ⟨path, 0, true⟩, w.emit (.osOpen path true))
    else (.error .io, w.emit (.osOpen path false))
  | some _ =>
    if fails then (.error .io, w.emit (.osOpen path false))
    else (.ok ⟨path, 0, false⟩, w.emit (.osOpen path true))

/-- The contents of a file after `data` is written at offset `off`; a gap
before the offset reads as zero bytes. -/
def writeAt (old : Bytes) (off : Nat) (data : Bytes) : Bytes :=
  (old ++ List.replicate (off - old.length) 0).take off ++ data ++
    old.drop (off + data.length)

/-- The method `(*os.File).Write`. The fault `some n` is a failing write that
stored the first `n` bytes only; `none` is a complete write. -/
def File.Write (f : File) (fault : Option Nat) (data : Bytes) (w : World) :
    Option FileError × File × World :=
  let written := match fault with
    | none => data
    | some n => data.take n
  let old := (w.files f.path).getD []
  let w1 := { w with files := Function.update w.files f.path (some (writeAt old f.offset written)) }
  (fault.map (fun _ => FileError.io), { f with offset := f.offset + written.length },
    w1.emit (.fileWrite f.path written))

/-- What one call of `(*os.File).Read` returns. -/
inductive ReadResult where
  | data (b : Bytes) : ReadResult
  | eof : ReadResult
  | failed : ReadResult

/-- The method `(*os.File).Read` into a buffer of `size` bytes: the bytes from
the file offset on, at most `size` of them, `io.EOF` when none is left. A read
from a handle that is open on a directory fails. -/
def File.Read (f : File) (fails : Bool) (size : Nat) (w : World) : ReadResult × File :=
  if fails || f.dir then (.failed, f)
  else
    let ahead := ((w.files f.path).getD []).drop f.offset
    if ahead = [] then (.eof, f)
    else (.data (ahead.take size), { f with offset := f.offset + (ahead.take size).length })

/-! ## `fileops.go` -/

/-- The function `CreateNewFile`: validates the name, then creates the file under the
directory. -/
def CreateNewFile (createFails : Bool) (directory name : String) (w : World) :
    Except FileError File × World :=
  let w := w.emit (.checkFileName name)
  match CheckFileName name with
  | some err => (.error err, w)
  | none =>
    let fullPath := filepath.Join directory name
    os.Create createFails fullPath w

/-- The function `WriteFileData`; writing through a nil handle is an error. -/
def WriteFileData (f : Option File) (fault : Option Nat) (data : Bytes) (w : World) :
    Option FileError × Option File × World :=
  match f with
  | none => (some .io, none, w)
  | some f =>
    let r := f.Write fault data w
    (r.1, some r.2.1, r.2.2)

/-! ## `server.go` -/

/-- The gRPC status codes the handlers use. -/
inductive codes where
  | ResourceExhausted : codes
  | Internal : codes
  | InvalidArgument : codes
  | NotFound : codes
  deriving DecidableEq

structure UploadRequest where
  Filename : String
  Chunk : Bytes
  deriving DecidableEq

structure UploadResponse where
  Message : String
  deriving DecidableEq

structure DownloadRequest where
  Filename : String
  deriving DecidableEq

structure FileInfo where
  Filename : String
  CreatedAt : String
  UpdatedAt : String
  deriving DecidableEq

/-- The value a handler returns: `nil`, `status.Errorf(code, ...)`, or, at the
end of an upload, whatever `stream.SendAndClose(resp)` returns. -/
inductive Returned where
  | nil : Returned
  | errorf (code : codes) : Returned
  | sendAndClose (resp : UploadResponse) : Returned
  deriving DecidableEq

/-- One result of `stream.Recv()` other than `io.EOF`. -/
inductive RecvResult where
  | msg (req : UploadRequest) : RecvResult
  | failed : RecvResult
  deriving DecidableEq

/-- What the outside decides during one upload: whether the ticket is granted,
the results of the successive `Recv` calls (after the last of them `Recv`
returns `io.EOF`), whether `os.Create` fails, and the faults of the successive
`Write` calls (none once the list is used up). -/
structure UploadEnv where
  acquire : Bool
  recv : List RecvResult
  createFails : Bool
  writes : List (Option Nat)

/-- The acknowledgment of a finished upload. -/
def uploadDone : UploadResponse := ⟨"Файл успешно загружен"⟩

/-- The receive loop of `UploadFile`, from the variables `fileName` and
`fileHandle` as they stand. Returns the handler's return value, the handle the
deferred close will see, and the state. -/
def uploadLoop (createFails : Bool) :
    List RecvResult → List (Option Nat) → String → Option File → World →
      Returned × Option File × World
  | [], _, _, fileHandle, w => (.sendAndClose uploadDone, fileHandle, w)
  | .failed :: _, _, _, fileHandle, w => (.errorf .Internal, fileHandle, w)
  | .msg req :: rest, writes, fileName, fileHandle, w =>
    let first : Except FileError (String × Option File) × World :=
      if fileName = "" then
        match CreateNewFile createFails storageDir req.Filename w with
        | (.error err, w1) => (.error err, w1)
        | (.ok f, w1) => (.ok (req.Filename, some f), w1)
      else (.ok (fileName, fileHandle), w)
    match first with
    | (.error _, w1) => (.errorf .Internal, none, w1)
    | (.ok (fileName1, fileHandle1), w1) =>
      match WriteFileData fileHandle1 (writes.headD none) req.Chunk w1 with
      | (some _, fileHandle2, w2) => (.errorf .Internal, fileHandle2, w2)
      | (none, fileHandle2, w2) => uploadLoop createFails rest writes.tail fileName1 fileHandle2 w2

/-- The handler `UploadFile`. The two deferred calls run on every return, the close of the
handle before the release of the ticket. -/
def UploadFile (env : UploadEnv) (w : World) : Returned × World :=
  match w.uploadLimiter.Acquire env.acquire with
  | (false, _) => (.errorf .ResourceExhausted, w.emit (.acquire .upload false))
  | (true, lim) =>
    let w1 := { w with uploadLimiter := lim }.emit (.acquire .upload true)
    let r := uploadLoop env.createFails env.recv env.writes "" none w1
    let w2 := match r.2.1 with
      | some f => r.2.2.emit (.fileClose f.path)
      | none => r.2.2
    (r.1, { w2 with uploadLimiter := w2.uploadLimiter.Release }.emit (.release .upload))

/-- One entry of `os.ReadDir`: its name and, unless `Info()` fails, the
modification time in RFC 3339 form. -/
structure DirEntry where
  Name : String
  modTime : Option String

/-- What the outside decides during one listing: whether the ticket is
granted, and the result of `os.ReadDir` (`none` when it fails). -/
structure ListEnv where
  acquire : Bool
  readDir : Option (List DirEntry)

/-- The handler `ListFiles`: entries whose `Info()` fails are left out, a failed
`os.ReadDir` ends the call with `codes.Internal`, and the deferred release runs
on every return after the acquisition. -/
def ListFiles (env : ListEnv) (w : World) : Except codes (List FileInfo) × World :=
  match w.listLimiter.Acquire env.acquire with
  | (false, _) => (.error .ResourceExhausted, w.emit (.acquire .list false))
  | (true, lim) =>
    let w1 := { w with listLimiter := lim }.emit (.acquire .list true)
    let r : Except codes (List FileInfo) :=
      match env.readDir with
      | none => .error .Internal
      | some files =>
        .ok (files.filterMap (fun file =>
          match file.modTime with
          | none => none
          | some t => some ⟨file.Name, t, t⟩))
    (r, { w1 with listLimiter := w1.listLimiter.Release }.emit (.release .list))

/-- What the outside decides during one download: whether the ticket is
granted, whether `os.Open` is refused by the file system, which of the
successive `Read` and `Send` calls fail (none once a list is used up), and
whether the requested path names a directory. -/
structure DownloadEnv where
  acquire : Bool
  openFails : Bool
  reads : List Bool
  sends : List Bool
  isDir : Bool

/-- The read loop of `DownloadFile` with its 1024-byte buffer. The first
argument bounds the number of rounds; `none` means the bound was reached.
Returns the handler's return value, the state and the chunks sent. -/
def downloadLoop : Nat → List Bool → List Bool → File → World → List Bytes →
    Option (Returned × World × List Bytes)
  | 0, _, _, _, _, _ => none
  | fuel + 1, reads, sends, f, w, sent =>
    match f.Read (reads.headD false) 1024 w with
    | (.eof, _) => some (.nil, w, sent)
    | (.failed, _) => some (.errorf .Internal, w, sent)
    | (.data chunk, f1) =>
      if sends.headD false then
        some (.errorf .Internal, w.emit (.send chunk false), sent)
      else
        downloadLoop fuel reads.tail sends.tail f1 (w.emit (.send chunk true)) (sent ++ [chunk])

/-- The handler `DownloadFile`. Returns `none` only if the read loop did not finish within
one round per stored byte plus one. -/
def DownloadFile (env : DownloadEnv) (req : DownloadRequest) (w : World) :
    Option (Returned × World × List Bytes) :=
  match w.downloadLimiter.Acquire env.acquire with
  | (false, _) => some (.errorf .ResourceExhausted, w.emit (.acquire .download false), [])
  | (true, lim) =>
    let w1 := { w with downloadLimiter := lim }.emit (.acquire .download true)
    let release := fun (v : World) =>
      { v with downloadLimiter := v.downloadLimiter.Release }.emit (.release .download)
    let w2 := w1.emit (.checkFileName req.Filename)
    match CheckFileName req.Filename with
    | some _ => some (.errorf .InvalidArgument, release w2, [])
    | none =>
      let filePath := filepath.Join storageDir req.Filename
      match os.Open env.openFails env.isDir filePath w2 with
      | (.error _, w3) => some (.errorf .NotFound, release w3, [])
      | (.ok fileHandle, w3) =>
        let fuel := ((w3.files filePath).getD []).length + 1
        (downloadLoop fuel env.reads env.sends fileHandle w3 []).map
          (fun r => (r.1, release (r.2.1.emit (.fileClose filePath)), r.2.2))

/-- The allow-set in the words of the specification: letters, digits, hyphen,
underscore and dot. -/
def specAllowedChar (c : Char) : Prop :=
  ('A' ≤ c ∧ c ≤ 'Z') ∨ ('a' ≤ c ∧ c ≤ 'z') ∨ ('0' ≤ c ∧ c ≤ '9') ∨
    c = '-' ∨ c = '_' ∨ c = '.'

/-- Whether a name holds two consecutive dots, the `..` of the specification. -/
def hasDotDot : List Char → Bool
  | [] => false
  | c :: t => (c == '.' && t.head? == some '.') || hasDotDot t

/-- Calls that create, open or write a file. -/
def Event.touchesFile : Event → Bool
  | .osCreate _ _ => true
  | .osOpen _ _ => true
  | .fileWrite _ _ => true
  | _ => false

/-- The limiter an `acquire` or `release` call addresses. -/
def Event.limiter? : Event → Option Limiter
  | .acquire l _ => some l
  | .release l => some l
  | _ => none

/-- Calls of `os.Create`. -/
def Event.isCreate : Event → Bool
  | .osCreate _ _ => true
  | _ => false

/-- A stream with the filename fields of its messages replaced, in order, by
the given names; messages beyond the last given name keep theirs. -/
def renameLater : List RecvResult → List String → List RecvResult
  | [], _ => []
  | .failed :: t, names => .failed :: renameLater t names
  | .msg req :: t, [] => .msg req :: t
  | .msg req :: t, n :: names => .msg { req with Filename := n } :: renameLater t names

/-- Acquire and release are paired on limiter `l` between two states: among
the calls made in between, the releases of `l` and the granted acquisitions of
`l` number one each when the ticket was granted and none when it was refused,
no call addresses another limiter, and each of the three limiters holds as many
tickets at the end as at the start. -/
def TicketsPaired (l : Limiter) (granted : Bool) (w w1 : World) : Prop :=
  (w.since w1).count (.release l) = (if granted then 1 else 0) ∧
  (w.since w1).count (.acquire l true) = (if granted then 1 else 0) ∧
  (∀ e ∈ w.since w1, e.limiter? = none ∨ e.limiter? = some l) ∧
  w1.uploadLimiter = w.uploadLimiter ∧ w1.downloadLimiter = w.downloadLimiter ∧
  w1.listLimiter = w.listLimiter

/-- The byte strings an upload must write, in order: the payload of every
message received before the first failure, a failing write counting with the
part it stored, and nothing after a failed receive or a failed write. The
second argument lists the faults of the successive writes. -/
def acceptedWrites : List RecvResult → List (Option Nat) → List Bytes
  | [], _ => []
  | .failed :: _, _ => []
  | .msg req :: rest, faults =>
    match faults.headD none with
    | none => req.Chunk :: acceptedWrites rest faults.tail
    | some n => [req.Chunk.take n]

/-! ## The validator -/

theorem char_between_self (a c : Char) : (a ≤ c ∧ c ≤ a) ↔ c = a :=
  ⟨fun h => le_antisymm h.2 h.1, fun h => by subst h; exact ⟨le_refl _, le_refl _⟩⟩

theorem inRanges_fileNameClass (c : Char) :
    inRanges fileNameClass c = true ↔ specAllowedChar c := by
  simp only [inRanges, fileNameClass, specAllowedChar, List.any_cons, List.any_nil,
    Bool.or_false, Bool.or_eq_true, Bool.and_eq_true, decide_eq_true_eq, char_between_self]
  tauto

/-- With enough fuel, `[class]+` can end at the end of the input exactly when
the input ahead is non-empty and lies in the class throughout. -/
theorem ends_plus_class (R : List (Char × Char)) :
    ∀ (t : List Char) (f i : Nat), t.length + 2 ≤ f →
      ((∃ j, (j, []) ∈ Regexp.ends f (.plus (.charClass R)) (i, t)) ↔
        (t ≠ [] ∧ ∀ c ∈ t, inRanges R c = true)) := by
  intro t
  induction t with
  | nil =>
    intro f i hf
    obtain ⟨f1, rfl⟩ : ∃ f1, f = f1 + 2 := ⟨f - 2, by omega⟩
    simp [Regexp.ends]
  | cons c t ih =>
    intro f i hf
    obtain ⟨f1, rfl⟩ : ∃ f1, f = f1 + 2 := ⟨f - 2, by omega⟩
    have hf1 : t.length + 2 ≤ f1 + 1 := by simp at hf; omega
    by_cases hc : inRanges R c = true
    · have ih1 := ih (f1 + 1) (i + 1) hf1
      have hends : Regexp.ends (f1 + 2) (.plus (.charClass R)) (i, c :: t) =
          (i + 1, t) :: Regexp.ends (f1 + 1) (.plus (.charClass R)) (i + 1, t) := by
        simp [Regexp.ends, hc]
      rw [hends]
      by_cases ht : t = []
      · subst ht
        simp [hc]
      · constructor
        · rintro ⟨j, h⟩
          rcases List.mem_cons.mp h with h | h
          · exact absurd (Prod.mk.inj h).2.symm ht
          · have := (ih1.mp ⟨j, h⟩).2
            refine ⟨by simp, ?_⟩
            intro d hd
            rcases List.mem_cons.mp hd with rfl | hd
            · exact hc
            · exact this d hd
        · rintro ⟨-, h⟩
          obtain ⟨j, hj⟩ := ih1.mpr ⟨ht, fun d hd => h d (List.mem_cons_of_mem _ hd)⟩
          exact ⟨j, List.mem_cons_of_mem _ hj⟩
    · simp [Regexp.ends, hc]

theorem startCursors_pos : ∀ (t : List Char) (i : Nat) (p : Cursor),
    p ∈ startCursors (i + 1) t → p.1 ≠ 0 := by
  intro t
  induction t with
  | nil => intro i p hp; simp [startCursors] at hp; subst hp; simp
  | cons c t ih =>
    intro i p hp
    simp only [startCursors, List.mem_cons] at hp
    rcases hp with rfl | hp
    · simp
    · exact ih (i + 1) p hp

theorem fileNamePattern_ends_nonzero (f : Nat) (p : Cursor) (hp : p.1 ≠ 0) :
    Regexp.ends f fileNamePattern p = [] := by
  obtain ⟨i, s⟩ := p
  cases f with
  | zero => simp [Regexp.ends]
  | succ f =>
    cases f with
    | zero => simp [fileNamePattern, Regexp.ends]
    | succ f =>
      have : i ≠ 0 := hp
      simp [fileNamePattern, Regexp.ends, this]

theorem fileNamePattern_ends_zero (s : List Char) (f : Nat) (hf : s.length + 2 ≤ f) :
    (Regexp.ends (f + 2) fileNamePattern (0, s) ≠ []) ↔
      (s ≠ [] ∧ ∀ c ∈ s, inRanges fileNameClass c = true) := by
  rw [← ends_plus_class fileNameClass s f 0 hf]
  obtain ⟨f1, rfl⟩ : ∃ f1, f = f1 + 1 := ⟨f - 1, by omega⟩
  simp only [fileNamePattern, Regexp.ends, if_true, List.flatMap_cons, List.flatMap_nil,
    List.append_nil]
  constructor
  · intro h
    obtain ⟨q, hq⟩ := List.exists_mem_of_ne_nil _ h
    obtain ⟨a, ha, hqa⟩ := List.mem_flatMap.mp hq
    obtain ⟨j, r⟩ := a
    cases r with
    | nil => exact ⟨j, ha⟩
    | cons d r => simp at hqa
  · rintro ⟨j, hj⟩
    apply List.ne_nil_of_mem (a := (j, []))
    exact List.mem_flatMap.mpr ⟨(j, []), hj, by simp⟩

/-- What `MatchString` computes for `fileNamePattern`. -/
theorem fileNamePattern_MatchString (name : String) :
    fileNamePattern.MatchString name = true ↔
      (name.toList ≠ [] ∧ ∀ c ∈ name.toList, inRanges fileNameClass c = true) := by
  have hkey := fileNamePattern_ends_zero name.toList (name.length + 5)
    (by have : name.toList.length = name.length := rfl
        omega)
  have hsize : name.length + fileNamePattern.size + 1 = name.length + 5 + 2 := by
    simp [fileNamePattern, Regexp.size]
  unfold Regexp.MatchString
  rw [hsize, ← hkey]
  cases hs : name.toList with
  | nil => simp [startCursors, List.isEmpty_iff]
  | cons c t =>
    simp only [startCursors, List.any_cons, Bool.or_eq_true, Bool.not_eq_true',
      List.any_eq_true, zero_add]
    constructor
    · rintro (h | ⟨p, hp, h⟩)
      · intro h0; rw [h0] at h; simp at h
      · rw [fileNamePattern_ends_nonzero _ p (startCursors_pos t 0 p hp)] at h
        simp at h
    · intro h
      left
      cases h2 : Regexp.ends (name.length + 5 + 2) fileNamePattern (0, c :: t) with
      | nil => exact absurd h2 h
      | cons a l => rfl

theorem CheckFileName_eq_none (name : String) :
    CheckFileName name = none ↔
      (name.toList ≠ [] ∧ ∀ c ∈ name.toList, specAllowedChar c) := by
  have h := fileNamePattern_MatchString name
  simp only [inRanges_fileNameClass] at h
  rw [← h]
  unfold CheckFileName
  cases fileNamePattern.MatchString name <;> simp

theorem CheckFileName_cases (name : String) :
    CheckFileName name = none ∨ CheckFileName name = some .invalidName := by
  unfold CheckFileName
  cases fileNamePattern.MatchString name <;> simp

theorem CheckFileName_of_bad_char (name : String)
    (h : ∃ c ∈ name.toList, ¬ specAllowedChar c) :
    CheckFileName name = some .invalidName := by
  rcases CheckFileName_cases name with h1 | h1
  · obtain ⟨c, hc, hbad⟩ := h
    exact absurd (((CheckFileName_eq_none name).mp h1).2 c hc) hbad
  · exact h1

theorem ne_empty_of_CheckFileName (name : String) (h : CheckFileName name = none) :
    name ≠ "" := by
  intro h0
  subst h0
  exact absurd rfl ((CheckFileName_eq_none "").mp h).1

theorem since_eq (w w1 : World) (evs : List Event) (h : w1.trace = w.trace ++ evs) :
    w.since w1 = evs := by
  simp [World.since, h]

theorem splitSep_no_sep : ∀ (n : List Char), '/' ∉ n → splitSep n = [n] := by
  intro n
  induction n with
  | nil => intro _; rfl
  | cons c t ih =>
    intro h
    have hc : c ≠ '/' := fun h0 => h (by simp [h0])
    have ht : '/' ∉ t := fun h0 => h (List.mem_cons_of_mem _ h0)
    simp [splitSep, hc, ih ht]

theorem splitSep_append_sep : ∀ (d n : List Char), '/' ∉ d →
    splitSep (d ++ '/' :: n) = d :: splitSep n := by
  intro d
  induction d with
  | nil => intro n _; simp [splitSep]
  | cons c t ih =>
    intro n h
    have hc : c ≠ '/' := fun h0 => h (by simp [h0])
    have ht : '/' ∉ t := fun h0 => h (List.mem_cons_of_mem _ h0)
    simp [splitSep, hc, ih n ht]

theorem Join_storageDir (name : String) (hsep : '/' ∉ name.toList) (hne : name ≠ "")
    (hdot : name ≠ ".") (hdotdot : name ≠ "..") :
    filepath.Join storageDir name = storageDir ++ "/" ++ name := by
  obtain ⟨n⟩ := name
  have h1 : n ≠ [] := fun h => hne (by rw [h])
  have h2 : n ≠ ['.'] := fun h => hdot (by rw [h])
  have h3 : n ≠ ['.', '.'] := fun h => hdotdot (by rw [h])
  have hs : splitSep ("storage".toList ++ '/' :: n) = "storage".toList :: [n] := by
    rw [splitSep_append_sep _ _ (by decide), splitSep_no_sep n hsep]
  have hpath : storageDir ++ "/" ++ String.mk n = String.mk ("storage".toList ++ '/' :: n) := by
    apply String.ext
    simp [storageDir]
  have hfold : List.foldl (cleanPush false) [] ["storage".toList, n] = [n, "storage".toList] := by
    have e1 : cleanPush false [] "storage".toList = ["storage".toList] := by decide
    simp only [List.foldl, e1]
    simp [cleanPush, h1, h2, h3]
  unfold filepath.Join
  rw [if_pos (by decide), hpath]
  unfold filepath.Clean
  rw [if_neg (by intro h; have := congrArg String.data h; simp at this)]
  have hcs : (String.mk ("storage".toList ++ '/' :: n)).toList = "storage".toList ++ '/' :: n := rfl
  have hroot : (("storage".toList ++ '/' :: n).head? == some '/') = false := rfl
  simp only [hcs, hroot, hs, hfold]
  simp [List.intercalate]

theorem writeAt_end (old data : Bytes) : writeAt old old.length data = old ++ data := by
  simp [writeAt]

/-- The receive loop once the target is bound, on a stream without failure:
every payload is appended through the bound handle. -/
theorem uploadLoop_bound (createFails : Bool) :
    ∀ (reqs : List UploadRequest) (writes : List (Option Nat)) (fileName : String) (f : File)
      (w : World) (content : Bytes),
      fileName ≠ "" → (∀ x ∈ writes, x = none) → w.files f.path = some content →
      f.offset = content.length →
      uploadLoop createFails (reqs.map .msg) writes fileName (some f) w =
        (.sendAndClose uploadDone,
          some ⟨f.path, f.offset + (reqs.map (·.Chunk)).flatten.length, f.dir⟩,
          { w with
            files := Function.update w.files f.path
              (some (content ++ (reqs.map (·.Chunk)).flatten))
            trace := w.trace ++ reqs.map (fun r => .fileWrite f.path r.Chunk) }) := by
  intro reqs
  induction reqs with
  | nil =>
    intro writes fileName f w content _ _ hfile _
    simp [uploadLoop, ← hfile]
  | cons r rs ih =>
    intro writes fileName f w content hname hwrites hfile hoff
    have hhead : writes.headD none = none := by
      cases writes with
      | nil => rfl
      | cons x xs => exact hwrites x (by simp)
    have htail : ∀ x ∈ writes.tail, x = none := fun x hx =>
      hwrites x (List.mem_of_mem_tail hx)
    simp only [List.map_cons, uploadLoop, if_neg hname, WriteFileData, File.Write, hhead,
      Option.map_none', hfile, Option.getD_some, hoff, writeAt_end, World.emit]
    rw [ih writes.tail fileName _ _ (content ++ r.Chunk) hname htail (by simp) (by simp)]
    simp [Nat.add_assoc]

theorem drop_min_length (n : Nat) (l : Bytes) : l.drop (min n l.length) = l.drop n := by
  rcases Nat.le_total n l.length with h | h
  · rw [Nat.min_eq_left h]
  · rw [Nat.min_eq_right h, List.drop_length, List.drop_eq_nil_of_le h]

/-- The read loop finishes within one round per byte ahead plus one. It only
appends `send` calls to the trace, every chunk it sends has at most 1024
bytes, a `nil` return means the chunks sent add up to the bytes that were ahead,
and without read or send failure the return is `nil`. -/
theorem downloadLoop_spec (content : Bytes) :
    ∀ (fuel : Nat) (reads sends : List Bool) (f : File) (w : World) (sent : List Bytes),
      w.files f.path = some content → f.dir = false →
      (content.drop f.offset).length < fuel →
      ∃ r evs more,
        downloadLoop fuel reads sends f w sent =
          some (r, { w with trace := w.trace ++ evs }, sent ++ more) ∧
        (∀ e ∈ evs, ∃ c ok, e = Event.send c ok) ∧
        (∀ c ∈ more, c.length ≤ 1024) ∧
        (r = .nil → more.flatten = content.drop f.offset) ∧
        ((∀ b ∈ reads, b = false) → (∀ b ∈ sends, b = false) → r = .nil) := by
  intro fuel
  induction fuel with
  | zero => intro _ _ _ _ _ _ _ h; exact absurd h (Nat.not_lt_zero _)
  | succ fuel ih =>
    intro reads sends f w sent hfile hdir hfuel
    cases hread : reads.head?.getD false with
    | true =>
      refine ⟨.errorf .Internal, [], [], ?_, by simp, by simp, by simp, ?_⟩
      · simp [downloadLoop, File.Read, hread]
      · intro hr _
        cases reads with
        | nil => simp at hread
        | cons b bs =>
          have hb : b = true := by simpa using hread
          have := hr b (by simp)
          simp [hb] at this
    | false =>
      by_cases hahead : content.drop f.offset = []
      · refine ⟨.nil, [], [], ?_, by simp, by simp, by simp [hahead], by simp⟩
        simp [downloadLoop, File.Read, hread, hdir, hfile, hahead]
      · cases hsend : sends.head?.getD false with
        | true =>
          refine ⟨.errorf .Internal, [.send ((content.drop f.offset).take 1024) false], [],
            ?_, by simp, by simp, by simp, ?_⟩
          · simp [downloadLoop, File.Read, hread, hdir, hfile, hahead, hsend, World.emit]
          · intro _ hs
            cases sends with
            | nil => simp at hsend
            | cons b bs =>
              have hb : b = true := by simpa using hsend
              have := hs b (by simp)
              simp [hb] at this
        | false =>
          have hpos : 0 < (content.drop f.offset).length :=
            List.length_pos.mpr hahead
          have hnext : content.drop (f.offset + ((content.drop f.offset).take 1024).length) =
              (content.drop f.offset).drop 1024 := by
            rw [List.length_take, ← List.drop_drop, drop_min_length]
          obtain ⟨r, evs, more, hloop, hevs, hmore, hnil, hok⟩ :=
            ih reads.tail sends.tail
              ⟨f.path, f.offset + ((content.drop f.offset).take 1024).length, f.dir⟩
              (w.emit (.send ((content.drop f.offset).take 1024) true))
              (sent ++ [(content.drop f.offset).take 1024])
              (by simpa [World.emit] using hfile) hdir
              (by
                simp only [hnext, List.length_drop]
                simp only [List.length_drop] at hfuel hpos
                omega)
          refine ⟨r, .send ((content.drop f.offset).take 1024) true :: evs,
            (content.drop f.offset).take 1024 :: more, ?_, ?_, ?_, ?_, ?_⟩
          · simp only [downloadLoop, File.Read, List.headD_eq_head?_getD, hread, hdir,
              Bool.or_self, Bool.false_eq_true, if_false, hfile,
              Option.getD_some, hahead, hsend]
            simpa [World.emit, hdir] using hloop
          · intro e he
            rcases List.mem_cons.mp he with rfl | he
            · exact ⟨_, _, rfl⟩
            · exact hevs e he
          · intro c hc
            rcases List.mem_cons.mp hc with rfl | hc
            · simp [List.length_take]
            · exact hmore c hc
          · intro hr
            rw [List.flatten_cons, hnil hr, hnext, List.take_append_drop]
          · intro hr hs
            exact hok (fun b hb => hr b (List.mem_of_mem_tail hb))
              (fun b hb => hs b (List.mem_of_mem_tail hb))

/-- The first round of the receive loop on a valid name, when neither the
creation nor the first write fails. -/
theorem uploadLoop_first (req : UploadRequest) (rest : List RecvResult)
    (writes : List (Option Nat)) (w : World) (hname : CheckFileName req.Filename = none)
    (hhead : writes.headD none = none) :
    uploadLoop false (.msg req :: rest) writes "" none w =
      uploadLoop false rest writes.tail req.Filename
        (some ⟨filepath.Join storageDir req.Filename, req.Chunk.length, false⟩)
        { w with
          files := Function.update w.files (filepath.Join storageDir req.Filename)
            (some req.Chunk)
          trace := w.trace ++ [.checkFileName req.Filename,
            .osCreate (filepath.Join storageDir req.Filename) true,
            .fileWrite (filepath.Join storageDir req.Filename) req.Chunk] } := by
  have hhead1 : writes.head?.getD none = none := by simpa using hhead
  simp [uploadLoop, CreateNewFile, hname, os.Create, WriteFileData, File.Write, hhead1,
    World.emit, writeAt]

/-- An upload without failure: the acknowledgment, and the stored files afterwards. -/
theorem UploadFile_clean_run (env : UploadEnv) (w : World)
    (first : UploadRequest) (more : List UploadRequest)
    (hacq : env.acquire = true) (hrecv : env.recv = (first :: more).map .msg)
    (hname : CheckFileName first.Filename = none) (hcreate : env.createFails = false)
    (hwrite : ∀ x ∈ env.writes, x = none) :
    (UploadFile env w).1 = .sendAndClose uploadDone ∧
    (UploadFile env w).2.files (filepath.Join storageDir first.Filename) =
      some ((first :: more).map (·.Chunk)).flatten ∧
    ∀ p, p ≠ filepath.Join storageDir first.Filename →
      (UploadFile env w).2.files p = w.files p := by
  have hne := ne_empty_of_CheckFileName _ hname
  have hhead : env.writes.headD none = none := by
    cases hw : env.writes with
    | nil => rfl
    | cons x xs => exact hwrite x (by simp [hw])
  have htail : ∀ x ∈ env.writes.tail, x = none := fun x hx =>
    hwrite x (List.mem_of_mem_tail hx)
  simp only [UploadFile, Weighted.Acquire, hacq, if_true, hrecv, List.map_cons, hcreate]
  rw [uploadLoop_first first _ _ _ hname hhead,
    uploadLoop_bound false more env.writes.tail first.Filename _ _ first.Chunk
      hne htail (by simp) (by simp)]
  simp only [World.emit, Function.update_same, Function.update_idem, List.flatten_cons,
    true_and]
  intro p hp
  simp [Function.update_noteq hp]


/-- A download of a valid name whose file opens: the handler returns, the
state changes only in its trace, the calls between the open and the close are
sends, every chunk sent has at most 1024 bytes, a `nil` return means the
chunks add up to the stored bytes, and without read or send failure the return
is `nil`. -/
theorem DownloadFile_opened (env : DownloadEnv) (name : String) (w : World) (content : Bytes)
    (hacq : env.acquire = true) (hname : CheckFileName name = none)
    (hfile : w.files (filepath.Join storageDir name) = some content)
    (hopen : env.openFails = false) :
    ∃ r evs sent,
      DownloadFile env ⟨name⟩ w =
        some (r,
          { w with trace := w.trace ++ .acquire .download true :: .checkFileName name ::
              .osOpen (filepath.Join storageDir name) true :: evs ++
                [.fileClose (filepath.Join storageDir name), .release .download] },
          sent) ∧
      (∀ e ∈ evs, ∃ c ok, e = Event.send c ok) ∧
      (∀ c ∈ sent, c.length ≤ 1024) ∧
      (r = .nil → sent.flatten = content) ∧
      ((∀ b ∈ env.reads, b = false) → (∀ b ∈ env.sends, b = false) → r = .nil) := by
  have hopened : ∀ v : World, v.files = w.files →
      os.Open env.openFails env.isDir (filepath.Join storageDir name) v =
        (.ok ⟨filepath.Join storageDir name, 0, false⟩,
          v.emit (.osOpen (filepath.Join storageDir name) true)) := by
    intro v hv
    simp [os.Open, hv, hfile, hopen]
  simp only [DownloadFile, Weighted.Acquire, hacq, if_true, hname]
  rw [hopened _ (by simp [World.emit])]
  simp only []
  have hfile1 : ∀ v : World, v.files = w.files →
      (v.files (filepath.Join storageDir name)).getD [] = content := by
    intro v hv
    rw [hv, hfile]
    rfl
  rw [hfile1 _ (by simp [World.emit])]
  obtain ⟨r, evs, more, hloop, hevs, hmore, hnil, hok⟩ :=
    downloadLoop_spec content (content.length + 1) env.reads env.sends
      ⟨filepath.Join storageDir name, 0, false⟩
      ((({ w with downloadLimiter := ⟨w.downloadLimiter.size, w.downloadLimiter.cur + 1⟩ }.emit
        (.acquire .download true)).emit (.checkFileName name)).emit
        (.osOpen (filepath.Join storageDir name) true)) []
      (by simpa [World.emit] using hfile) rfl (by simp)
  rw [hloop]
  refine ⟨r, evs, more, ?_, hevs, hmore, by simpa using hnil, hok⟩
  simp [World.emit, Weighted.Release]

/-- Once the target is bound the receive loop keeps the handle's path, changes
the state only in its files and trace, and the calls it adds are writes through
that handle. -/
theorem uploadLoop_bound_trace (createFails : Bool) :
    ∀ (recv : List RecvResult) (writes : List (Option Nat)) (fileName : String) (f : File)
      (w : World), fileName ≠ "" →
      ∃ r off files1 evs,
        uploadLoop createFails recv writes fileName (some f) w =
          (r, some ⟨f.path, off, f.dir⟩, { w with files := files1, trace := w.trace ++ evs }) ∧
        ∀ e ∈ evs, ∃ d, e = Event.fileWrite f.path d := by
  intro recv
  induction recv with
  | nil =>
    intro writes fileName f w _
    exact ⟨.sendAndClose uploadDone, f.offset, w.files, [], by simp [uploadLoop], by simp⟩
  | cons x rest ih =>
    intro writes fileName f w hname
    cases x with
    | failed => exact ⟨.errorf .Internal, f.offset, w.files, [], by simp [uploadLoop], by simp⟩
    | msg req =>
      cases hfault : writes.head?.getD none with
      | some n =>
        refine ⟨.errorf .Internal, f.offset + (req.Chunk.take n).length,
          Function.update w.files f.path
            (some (writeAt ((w.files f.path).getD []) f.offset (req.Chunk.take n))),
          [.fileWrite f.path (req.Chunk.take n)], ?_, by simp⟩
        simp only [uploadLoop, if_neg hname, WriteFileData, File.Write,
          List.headD_eq_head?_getD, hfault, World.emit]
        rfl
      | none =>
        obtain ⟨r, off, files1, evs, hloop, hevs⟩ :=
          ih writes.tail fileName ⟨f.path, f.offset + req.Chunk.length, f.dir⟩
            (World.emit
              { w with files := (Function.update w.files f.path
                  (some (writeAt ((w.files f.path).getD []) f.offset req.Chunk))) }
              (.fileWrite f.path req.Chunk)) hname
        refine ⟨r, off, files1, .fileWrite f.path req.Chunk :: evs, ?_, ?_⟩
        · simp only [uploadLoop, if_neg hname, WriteFileData, File.Write,
            List.headD_eq_head?_getD, hfault, Option.map_none']
          rw [hloop]
          simp [World.emit]
        · intro e he
          rcases List.mem_cons.mp he with rfl | he
          · exact ⟨_, rfl⟩
          · exact hevs e he

/-- The receive loop from the start of a stream: it changes the state only in
its files and trace, calls no limiter, creates at most one file, and writes
only to the path joined from the storage root and the first message's name. -/
theorem uploadLoop_start_trace (createFails : Bool) (recv : List RecvResult)
    (writes : List (Option Nat)) (w : World) :
    ∃ r fh files1 evs,
      uploadLoop createFails recv writes "" none w =
        (r, fh, { w with files := files1, trace := w.trace ++ evs }) ∧
      (∀ e ∈ evs, e.limiter? = none) ∧
      evs.countP Event.isCreate ≤ 1 ∧
      (∀ p d, Event.fileWrite p d ∈ evs →
        ∃ req rest, recv = .msg req :: rest ∧ p = filepath.Join storageDir req.Filename) := by
  cases recv with
  | nil => exact ⟨.sendAndClose uploadDone, none, w.files, [], by simp [uploadLoop], by simp,
      by simp, by simp⟩
  | cons x rest =>
    cases x with
    | failed => exact ⟨.errorf .Internal, none, w.files, [], by simp [uploadLoop], by simp,
        by simp, by simp⟩
    | msg req =>
      rcases CheckFileName_cases req.Filename with hname | hname
      · cases createFails with
        | true =>
          refine ⟨.errorf .Internal, none, w.files, [.checkFileName req.Filename,
            .osCreate (filepath.Join storageDir req.Filename) false], ?_, ?_, ?_, ?_⟩
          · simp [uploadLoop, CreateNewFile, hname, os.Create, World.emit]
          · simp [Event.limiter?]
          · simp [List.countP_cons, Event.isCreate]
          · simp
        | false =>
          cases hfault : writes.head?.getD none with
          | some n =>
            refine ⟨.errorf .Internal,
              some ⟨filepath.Join storageDir req.Filename, (req.Chunk.take n).length, false⟩,
              Function.update w.files (filepath.Join storageDir req.Filename)
                (some (req.Chunk.take n)),
              [.checkFileName req.Filename,
                .osCreate (filepath.Join storageDir req.Filename) true,
                .fileWrite (filepath.Join storageDir req.Filename) (req.Chunk.take n)],
              ?_, ?_, ?_, ?_⟩
            · simp [uploadLoop, CreateNewFile, hname, os.Create, WriteFileData, File.Write,
                hfault, World.emit, writeAt]
            · simp [Event.limiter?]
            · simp [List.countP_cons, Event.isCreate]
            · intro p d hmem
              simp at hmem
              exact ⟨req, rest, rfl, hmem.1⟩
          | none =>
            obtain ⟨r, off, files1, evs, hloop, hevs⟩ :=
              uploadLoop_bound_trace false rest writes.tail req.Filename
                ⟨filepath.Join storageDir req.Filename, req.Chunk.length, false⟩
                { w with
                  files := Function.update w.files (filepath.Join storageDir req.Filename)
                    (some req.Chunk)
                  trace := w.trace ++ [.checkFileName req.Filename,
                    .osCreate (filepath.Join storageDir req.Filename) true,
                    .fileWrite (filepath.Join storageDir req.Filename) req.Chunk] }
                (ne_empty_of_CheckFileName _ hname)
            refine ⟨r, some ⟨filepath.Join storageDir req.Filename, off, false⟩, files1,
              [.checkFileName req.Filename,
              .osCreate (filepath.Join storageDir req.Filename) true,
              .fileWrite (filepath.Join storageDir req.Filename) req.Chunk] ++ evs,
              ?_, ?_, ?_, ?_⟩
            · rw [uploadLoop_first req rest writes w hname (by simpa using hfault), hloop]
              simp
            · intro e he
              rcases List.mem_append.mp he with he | he
              · simp at he
                rcases he with rfl | rfl | rfl <;> rfl
              · obtain ⟨d, rfl⟩ := hevs e he
                rfl
            · have hz : evs.countP Event.isCreate = 0 := by
                rw [List.countP_eq_zero]
                intro e he
                obtain ⟨d, rfl⟩ := hevs e he
                simp [Event.isCreate]
              rw [List.countP_append, hz]
              simp [List.countP_cons, Event.isCreate]
            · intro p d hmem
              refine ⟨req, rest, rfl, ?_⟩
              rcases List.mem_append.mp hmem with he | he
              · simp at he
                exact he.1
              · obtain ⟨d1, h1⟩ := hevs _ he
                exact (Event.fileWrite.inj h1).1
      · refine ⟨.errorf .Internal, none, w.files, [.checkFileName req.Filename], ?_, ?_, ?_, ?_⟩
        · simp [uploadLoop, CreateNewFile, hname, World.emit]
        · simp [Event.limiter?]
        · simp [List.countP_cons, Event.isCreate]
        · simp

/-- A state that differs from the start by its files and by a trace of the
form acquisition, calls to no limiter, release (or a refused acquisition alone)
has its tickets paired. -/
theorem TicketsPaired_of_shape (l : Limiter) (granted : Bool) (w : World)
    (files1 : String → Option Bytes) (body : List Event)
    (hbody : ∀ e ∈ body, e.limiter? = none) :
    TicketsPaired l granted w
      { w with
        files := files1
        trace := w.trace ++
          (if granted then .acquire l true :: body ++ [.release l] else [.acquire l false]) } := by
  have hrel : body.count (.release l) = 0 := by
    rw [List.count_eq_zero]
    intro h
    have := hbody _ h
    simp [Event.limiter?] at this
  have hacq : body.count (.acquire l true) = 0 := by
    rw [List.count_eq_zero]
    intro h
    have := hbody _ h
    simp [Event.limiter?] at this
  unfold TicketsPaired
  rw [since_eq w _ _ rfl]
  cases granted with
  | false => simp [Event.limiter?]
  | true =>
    refine ⟨?_, ?_, ?_, rfl, rfl, rfl⟩
    · simp [List.count_cons, List.count_append, hrel]
    · simp [List.count_cons, List.count_append, hacq]
    · intro e he
      simp only [if_true, List.mem_cons, List.mem_append, List.not_mem_nil, or_false] at he
      rcases he with (rfl | he) | rfl
      · right; rfl
      · left; exact hbody e he
      · right; rfl

theorem UploadFile_shape (env : UploadEnv) (w : World) :
    ∃ files1 body,
      (UploadFile env w).2 =
        { w with
          files := files1
          trace := w.trace ++
            (if env.acquire then .acquire .upload true :: body ++ [.release .upload]
              else [.acquire .upload false]) } ∧
      (∀ e ∈ body, e.limiter? = none) ∧
      body.countP Event.isCreate ≤ 1 ∧
      (∀ p d, Event.fileWrite p d ∈ body →
        ∃ req rest, env.recv = .msg req :: rest ∧
          p = filepath.Join storageDir req.Filename) := by
  cases hacq : env.acquire with
  | false =>
    exact ⟨w.files, [], by simp [UploadFile, Weighted.Acquire, hacq, World.emit], by simp,
      by simp, by simp⟩
  | true =>
    obtain ⟨r, fh, files1, evs, hloop, hlim, hcreate, hwrite⟩ :=
      uploadLoop_start_trace env.createFails env.recv env.writes
        (World.emit { w with uploadLimiter := ⟨w.uploadLimiter.size, w.uploadLimiter.cur + 1⟩ }
          (.acquire .upload true))
    cases fh with
    | none =>
      refine ⟨files1, evs, ?_, hlim, hcreate, hwrite⟩
      simp only [UploadFile, Weighted.Acquire, hacq, if_true]
      rw [hloop]
      simp [World.emit, Weighted.Release]
    | some f =>
      refine ⟨files1, evs ++ [.fileClose f.path], ?_, ?_, ?_, ?_⟩
      · simp only [UploadFile, Weighted.Acquire, hacq, if_true]
        rw [hloop]
        simp [World.emit, Weighted.Release]
      · intro e he
        rcases List.mem_append.mp he with he | he
        · exact hlim e he
        · simp at he; subst he; rfl
      · rw [List.countP_append]
        simpa [List.countP_cons, Event.isCreate] using hcreate
      · intro p d hmem
        rcases List.mem_append.mp hmem with he | he
        · exact hwrite p d he
        · simp at he

theorem ListFiles_shape (env : ListEnv) (w : World) :
    (ListFiles env w).2 =
      { w with
        trace := w.trace ++
          (if env.acquire then .acquire .list true :: [] ++ [.release .list]
            else [.acquire .list false]) } := by
  cases hacq : env.acquire <;>
    simp [ListFiles, Weighted.Acquire, hacq, World.emit, Weighted.Release]

theorem DownloadFile_shape (env : DownloadEnv) (req : DownloadRequest) (w : World) :
    ∃ r body sent,
      DownloadFile env req w =
        some (r,
          { w with
            trace := w.trace ++
              (if env.acquire then .acquire .download true :: body ++ [.release .download]
                else [.acquire .download false]) },
          sent) ∧
      (∀ e ∈ body, e.limiter? = none) := by
  obtain ⟨name⟩ := req
  cases hacq : env.acquire with
  | false =>
    exact ⟨.errorf .ResourceExhausted, [], [],
      by simp [DownloadFile, Weighted.Acquire, hacq, World.emit], by simp⟩
  | true =>
    rcases CheckFileName_cases name with hname | hname
    · cases hfile : w.files (filepath.Join storageDir name) with
      | none =>
        by_cases hdir : env.isDir = true ∧ env.openFails = false
        · refine ⟨.errorf .Internal, [.checkFileName name,
            .osOpen (filepath.Join storageDir name) true,
            .fileClose (filepath.Join storageDir name)], [], ?_, ?_⟩
          · simp [DownloadFile, Weighted.Acquire, hacq, hname, os.Open, hfile, hdir.1, hdir.2,
              downloadLoop, File.Read, World.emit, Weighted.Release]
          · simp [Event.limiter?]
        · refine ⟨.errorf .NotFound, [.checkFileName name,
            .osOpen (filepath.Join storageDir name) false], [], ?_, ?_⟩
          · simp [DownloadFile, Weighted.Acquire, hacq, hname, os.Open, hfile, hdir,
              World.emit, Weighted.Release]
          · simp [Event.limiter?]
      | some content =>
        cases hopen : env.openFails with
        | true =>
          refine ⟨.errorf .NotFound, [.checkFileName name,
            .osOpen (filepath.Join storageDir name) false], [], ?_, ?_⟩
          · simp [DownloadFile, Weighted.Acquire, hacq, hname, os.Open, hfile, hopen,
              World.emit, Weighted.Release]
          · simp [Event.limiter?]
        | false =>
          obtain ⟨r, evs, sent, hdown, hevs, -⟩ :=
            DownloadFile_opened env name w content hacq hname hfile hopen
          refine ⟨r, .checkFileName name :: .osOpen (filepath.Join storageDir name) true ::
            evs ++ [.fileClose (filepath.Join storageDir name)], sent, ?_, ?_⟩
          · rw [hdown]
            simp
          · intro e he
            simp only [List.mem_cons, List.mem_append, List.not_mem_nil, or_false] at he
            rcases he with (rfl | rfl | he) | rfl
            · rfl
            · rfl
            · obtain ⟨c, ok, rfl⟩ := hevs e he
              rfl
            · rfl
    · refine ⟨.errorf .InvalidArgument, [.checkFileName name], [], ?_, ?_⟩
      · simp [DownloadFile, Weighted.Acquire, hacq, hname, World.emit, Weighted.Release]
      · simp [Event.limiter?]

/-- Once the target is bound the receive loop does not read the filename
fields. -/
theorem uploadLoop_renameLater (createFails : Bool) :
    ∀ (rest : List RecvResult) (names : List String) (writes : List (Option Nat))
      (fileName : String) (fh : Option File) (w : World), fileName ≠ "" →
      uploadLoop createFails (renameLater rest names) writes fileName fh w =
        uploadLoop createFails rest writes fileName fh w := by
  intro rest
  induction rest with
  | nil => intro names _ _ _ _ _; simp [renameLater]
  | cons x t ih =>
    intro names writes fileName fh w hname
    cases x with
    | failed => simp [renameLater, uploadLoop]
    | msg req =>
      cases names with
      | nil => simp [renameLater]
      | cons n ns =>
        simp only [renameLater, uploadLoop, if_neg hname]
        cases hwr : WriteFileData fh (writes.headD none) req.Chunk w with
        | mk o r =>
          obtain ⟨fh2, w2⟩ := r
          cases o with
          | some e => rfl
          | none => exact ih ns writes.tail fileName fh2 w2 hname

theorem uploadLoop_start_renameLater (createFails : Bool) (first : RecvResult)
    (rest : List RecvResult) (names : List String) (writes : List (Option Nat)) (w : World) :
    uploadLoop createFails (first :: renameLater rest names) writes "" none w =
      uploadLoop createFails (first :: rest) writes "" none w := by
  cases first with
  | failed => simp [uploadLoop]
  | msg req =>
    rcases CheckFileName_cases req.Filename with hname | hname
    · have hne := ne_empty_of_CheckFileName _ hname
      cases createFails with
      | true => simp [uploadLoop, CreateNewFile, hname, os.Create]
      | false =>
        simp only [uploadLoop, CreateNewFile, hname, os.Create, if_true, Bool.false_eq_true,
          if_false]
        cases hwr : WriteFileData (some ⟨filepath.Join storageDir req.Filename, 0, false⟩)
            (writes.headD none) req.Chunk
            (World.emit
              { (w.emit (.checkFileName req.Filename)) with
                files := (Function.update (w.emit (.checkFileName req.Filename)).files
                  (filepath.Join storageDir req.Filename) (some [])) }
              (.osCreate (filepath.Join storageDir req.Filename) true)) with
        | mk o r =>
          obtain ⟨fh2, w2⟩ := r
          cases o with
          | some e => rfl
          | none => exact uploadLoop_renameLater false rest names writes.tail _ fh2 w2 hne
    · simp [uploadLoop, CreateNewFile, hname]

/-- Once the target is bound and the handle stands at the end of its file, the
receive loop writes exactly the accepted payloads, in order, through that
handle, appending each to the file. -/
theorem uploadLoop_bound_exact (createFails : Bool) :
    ∀ (recv : List RecvResult) (writes : List (Option Nat)) (fileName : String) (f : File)
      (w : World) (content : Bytes),
      fileName ≠ "" → w.files f.path = some content → f.offset = content.length →
      ∃ r,
        uploadLoop createFails recv writes fileName (some f) w =
          (r, some ⟨f.path, f.offset + (acceptedWrites recv writes).flatten.length, f.dir⟩,
            { w with
              files := Function.update w.files f.path
                (some (content ++ (acceptedWrites recv writes).flatten))
              trace := w.trace ++ (acceptedWrites recv writes).map (.fileWrite f.path) }) := by
  intro recv
  induction recv with
  | nil =>
    intro writes fileName f w content _ hfile _
    exact ⟨.sendAndClose uploadDone, by simp [uploadLoop, acceptedWrites, ← hfile]⟩
  | cons x rest ih =>
    intro writes fileName f w content hname hfile hoff
    cases x with
    | failed => exact ⟨.errorf .Internal, by simp [uploadLoop, acceptedWrites, ← hfile]⟩
    | msg req =>
      cases hfault : writes.head?.getD none with
      | some n =>
        refine ⟨.errorf .Internal, ?_⟩
        simp [uploadLoop, hname, WriteFileData, File.Write, acceptedWrites, hfault, hfile,
          hoff, writeAt_end, World.emit]
      | none =>
        obtain ⟨r, hloop⟩ :=
          ih writes.tail fileName ⟨f.path, f.offset + req.Chunk.length, f.dir⟩
            (World.emit
              { w with files := (Function.update w.files f.path
                  (some (content ++ req.Chunk))) }
              (.fileWrite f.path req.Chunk)) (content ++ req.Chunk) hname
            (by simp [World.emit]) (by simp [hoff])
        refine ⟨r, ?_⟩
        simp only [uploadLoop, if_neg hname, WriteFileData, File.Write,
          List.headD_eq_head?_getD, hfault, Option.map_none', hfile, Option.getD_some, hoff,
          writeAt_end, acceptedWrites]
        simp only [hoff] at hloop
        rw [hloop]
        simp [World.emit, Nat.add_assoc]

/-- The first round of the receive loop on a valid name whose file is created:
from there on the loop runs with the target bound to a fresh handle. -/
theorem uploadLoop_start_bound (req : UploadRequest) (rest : List RecvResult)
    (writes : List (Option Nat)) (w : World) (hname : CheckFileName req.Filename = none) :
    uploadLoop false (.msg req :: rest) writes "" none w =
      uploadLoop false (.msg req :: rest) writes req.Filename
        (some ⟨filepath.Join storageDir req.Filename, 0, false⟩)
        { w with
          files := Function.update w.files (filepath.Join storageDir req.Filename) (some [])
          trace := w.trace ++ [.checkFileName req.Filename,
            .osCreate (filepath.Join storageDir req.Filename) true] } := by
  have hne := ne_empty_of_CheckFileName _ hname
  simp [uploadLoop, CreateNewFile, hname, os.Create, hne, World.emit]

/-- An upload with the ticket granted, a valid first name and a created file:
the calls it makes, and the file it leaves. -/
theorem UploadFile_accepted (env : UploadEnv) (w : World) (req : UploadRequest)
    (rest : List RecvResult) (hacq : env.acquire = true)
    (hrecv : env.recv = .msg req :: rest) (hname : CheckFileName req.Filename = none)
    (hcreate : env.createFails = false) :
    w.since (UploadFile env w).2 =
      .acquire .upload true :: .checkFileName req.Filename ::
        .osCreate (filepath.Join storageDir req.Filename) true ::
          ((acceptedWrites env.recv env.writes).map
              (.fileWrite (filepath.Join storageDir req.Filename)) ++
            [.fileClose (filepath.Join storageDir req.Filename), .release .upload]) ∧
    (UploadFile env w).2.files (filepath.Join storageDir req.Filename) =
      some (acceptedWrites env.recv env.writes).flatten := by
  have hne := ne_empty_of_CheckFileName _ hname
  obtain ⟨r, hloop⟩ := uploadLoop_bound_exact false (.msg req :: rest) env.writes req.Filename
    ⟨filepath.Join storageDir req.Filename, 0, false⟩
    { files := Function.update w.files (filepath.Join storageDir req.Filename) (some [])
      uploadLimiter := ⟨w.uploadLimiter.size, w.uploadLimiter.cur + 1⟩
      downloadLimiter := w.downloadLimiter
      listLimiter := w.listLimiter
      trace := w.trace ++ [.acquire .upload true] ++ [.checkFileName req.Filename,
        .osCreate (filepath.Join storageDir req.Filename) true] }
    [] hne (by simp) rfl
  simp only [UploadFile, Weighted.Acquire, hacq, if_true, hrecv, hcreate, World.emit]
  rw [uploadLoop_start_bound req rest env.writes _ hname, hloop]
  simp [World.since, World.emit]

theorem acceptedWrites_clean : ∀ (reqs : List UploadRequest) (faults : List (Option Nat)),
    (∀ x ∈ faults, x = none) →
      acceptedWrites (reqs.map .msg) faults = reqs.map (·.Chunk) := by
  intro reqs
  induction reqs with
  | nil => intro _ _; rfl
  | cons r rs ih =>
    intro faults hf
    have hhead : faults.headD none = none := by
      cases faults with
      | nil => rfl
      | cons x xs => exact hf x (by simp)
    have htail : ∀ x ∈ faults.tail, x = none := fun x hx => hf x (List.mem_of_mem_tail hx)
    simp only [List.map_cons, acceptedWrites, hhead, ih faults.tail htail]

/-- C1: `CheckFileName` returns no error exactly for the non-empty names made
of letters, digits, hyphen, underscore and dot; the empty name and names with a
trailing newline, a space or a non-ASCII letter are rejected. -/
theorem CheckFileName_accepts_iff :
    (∀ name : String, CheckFileName name = none ↔
      (name ≠ "" ∧ ∀ c ∈ name.toList, specAllowedChar c)) ∧
    CheckFileName "" ≠ none ∧ CheckFileName "a.txt\n" ≠ none ∧
    CheckFileName "my file" ≠ none ∧ CheckFileName "файл" ≠ none := by
  refine ⟨fun name => ?_, by decide, by decide, by decide, by decide⟩
  rw [CheckFileName_eq_none]
  have : name.toList ≠ [] ↔ name ≠ "" := by
    constructor
    · intro h h0; subst h0; exact h rfl
    · intro h h0; apply h; cases name; simp_all [String.toList]
  rw [this]

/-- C2, counterexample: the name `..` is accepted, holds two
consecutive dots, and joined to the storage root gives `.`, the directory above
the root. -/
theorem CheckFileName_accepts_dotdot :
    CheckFileName ".." = none ∧ hasDotDot "..".toList = true ∧
      filepath.Join storageDir ".." = "." := by decide

/-- C2, amended: an accepted name holds no path separator, neither `/` nor
`\`, and unless it is `.` or `..` the path joined from the storage root and the
name is the root, a slash and the name. -/
theorem CheckFileName_no_separator (name : String) (h : CheckFileName name = none) :
    '/' ∉ name.toList ∧ '\\' ∉ name.toList ∧
      (name ≠ "." → name ≠ ".." →
        filepath.Join storageDir name = storageDir ++ "/" ++ name) := by
  have hall := ((CheckFileName_eq_none name).mp h).2
  have h1 : '/' ∉ name.toList := fun hm => by
    have := hall _ hm
    revert this
    unfold specAllowedChar
    decide
  have h2 : '\\' ∉ name.toList := fun hm => by
    have := hall _ hm
    revert this
    unfold specAllowedChar
    decide
  exact ⟨h1, h2, fun hd hdd =>
    Join_storageDir name h1 (ne_empty_of_CheckFileName name h) hd hdd⟩

theorem CheckFileName_no_separator_witness :
    CheckFileName "a..b" = none ∧ '/' ∉ "a..b".toList ∧ '\\' ∉ "a..b".toList ∧
      ("a..b" ≠ "." → "a..b" ≠ ".." →
        filepath.Join storageDir "a..b" = storageDir ++ "/" ++ "a..b") :=
  ⟨by decide, CheckFileName_no_separator "a..b" (by decide)⟩

/-- C3, the code at the failing input: an upload whose first chunk is named
`../escape` ends with `codes.Internal`, while a download of the same name ends
with `codes.InvalidArgument`. -/
theorem UploadFile_invalid_name_is_Internal :
    (UploadFile ⟨true, [.msg ⟨"../escape", [1, 2, 3]⟩], false, []⟩
        (World.init (fun _ => none))).1 = .errorf .Internal ∧
    (DownloadFile ⟨true, false, [], [], false⟩ ⟨"../escape"⟩ (World.init (fun _ => none))).map
        (fun r => r.1) = some (.errorf .InvalidArgument) := by decide

/-- C4: a name with a character outside the allow-set is rejected with an error
by an upload whose first chunk carries it and by a download requesting it, and
neither call creates, opens or writes a file: the stored files are the same
after the call as before. -/
theorem invalid_name_leaves_storage (name : String)
    (hbad : ∃ c ∈ name.toList, ¬ specAllowedChar c)
    (data : Bytes) (rest : List RecvResult) (uenv : UploadEnv)
    (hrecv : uenv.recv = .msg ⟨name, data⟩ :: rest) (denv : DownloadEnv) (w : World) :
    ((∃ code, (UploadFile uenv w).1 = .errorf code) ∧
      (UploadFile uenv w).2.files = w.files ∧
      (w.since (UploadFile uenv w).2).all (fun e => !e.touchesFile) = true) ∧
    (∃ code w1, DownloadFile denv ⟨name⟩ w = some (.errorf code, w1, []) ∧
      w1.files = w.files ∧ (w.since w1).all (fun e => !e.touchesFile) = true) := by
  have hck := CheckFileName_of_bad_char name hbad
  constructor
  · cases hacq : uenv.acquire
    · simp [UploadFile, Weighted.Acquire, hacq, World.emit, World.since, Event.touchesFile]
    · simp [UploadFile, Weighted.Acquire, hacq, hrecv, uploadLoop, CreateNewFile, hck,
        World.emit, World.since, Event.touchesFile]
  · cases hacq : denv.acquire
    · simp only [DownloadFile, Weighted.Acquire, hacq, World.emit, World.since]
      refine ⟨_, _, rfl, ?_⟩
      simp [Event.touchesFile]
    · simp only [DownloadFile, Weighted.Acquire, hacq, hck, World.emit, World.since]
      refine ⟨_, _, rfl, ?_⟩
      simp [Event.touchesFile]

theorem invalid_name_leaves_storage_witness :
    ((∃ code, (UploadFile ⟨true, [.msg ⟨"../escape", [1]⟩], false, []⟩
        (World.init (fun _ => none))).1 = .errorf code) ∧
      (UploadFile ⟨true, [.msg ⟨"../escape", [1]⟩], false, []⟩
        (World.init (fun _ => none))).2.files = (World.init (fun _ => none)).files ∧
      ((World.init (fun _ => none)).since
        (UploadFile ⟨true, [.msg ⟨"../escape", [1]⟩], false, []⟩
          (World.init (fun _ => none))).2).all (fun e => !e.touchesFile) = true) ∧
    (∃ code w1, DownloadFile ⟨true, false, [], [], false⟩ ⟨"../escape"⟩
        (World.init (fun _ => none)) = some (.errorf code, w1, []) ∧
      w1.files = (World.init (fun _ => none)).files ∧
      ((World.init (fun _ => none)).since w1).all (fun e => !e.touchesFile) = true) :=
  invalid_name_leaves_storage "../escape" ⟨'/', by decide, by unfold specAllowedChar; decide⟩
    [1] [] ⟨true, [.msg ⟨"../escape", [1]⟩], false, []⟩ rfl ⟨true, false, [], [], false⟩
    (World.init (fun _ => none))

/-- C5: an upload of one or more chunks with a valid first filename, in which
the ticket is granted and no receive, create or write call fails, ends with the
success acknowledgment, and the file named by the first chunk then holds the
concatenation of all payloads in the order received, whatever was stored
before; no other file changes. -/
theorem UploadFile_stores_concatenation (env : UploadEnv) (w : World)
    (first : UploadRequest) (more : List UploadRequest)
    (hacq : env.acquire = true) (hrecv : env.recv = (first :: more).map .msg)
    (hname : CheckFileName first.Filename = none) (hcreate : env.createFails = false)
    (hwrite : ∀ x ∈ env.writes, x = none) :
    (UploadFile env w).1 = .sendAndClose uploadDone ∧
    (UploadFile env w).2.files (filepath.Join storageDir first.Filename) =
      some ((first :: more).map (·.Chunk)).flatten ∧
    ∀ p, p ≠ filepath.Join storageDir first.Filename →
      (UploadFile env w).2.files p = w.files p :=
  UploadFile_clean_run env w first more hacq hrecv hname hcreate hwrite

theorem UploadFile_stores_concatenation_witness :
    (UploadFile ⟨true, [.msg ⟨"a.txt", [104, 101, 108]⟩, .msg ⟨"", [108, 111]⟩], false, []⟩
        (World.init (fun _ => some [9, 9]))).1 = .sendAndClose uploadDone ∧
    (UploadFile ⟨true, [.msg ⟨"a.txt", [104, 101, 108]⟩, .msg ⟨"", [108, 111]⟩], false, []⟩
        (World.init (fun _ => some [9, 9]))).2.files (filepath.Join storageDir "a.txt") =
      some [104, 101, 108, 108, 111] ∧
    ∀ p, p ≠ filepath.Join storageDir "a.txt" →
      (UploadFile ⟨true, [.msg ⟨"a.txt", [104, 101, 108]⟩, .msg ⟨"", [108, 111]⟩], false, []⟩
        (World.init (fun _ => some [9, 9]))).2.files p = some [9, 9] :=
  UploadFile_stores_concatenation
    ⟨true, [.msg ⟨"a.txt", [104, 101, 108]⟩, .msg ⟨"", [108, 111]⟩], false, []⟩
    (World.init (fun _ => some [9, 9])) ⟨"a.txt", [104, 101, 108]⟩ [⟨"", [108, 111]⟩]
    rfl rfl (by decide) rfl (by simp)

/-- C9, counterexample: the valid name `..` names no stored file, its joined
path `.` is a directory, and the download with its ticket granted opens it,
fails on the first read and returns `codes.Internal`, not `codes.NotFound`. -/
theorem DownloadFile_directory_is_Internal :
    CheckFileName ".." = none ∧
    (World.init (fun _ => none)).files (filepath.Join storageDir "..") = none ∧
    (DownloadFile ⟨true, false, [], [], true⟩ ⟨".."⟩ (World.init (fun _ => none))).map
      (fun r => (r.1, r.2.2)) = some (.errorf .Internal, []) := by decide

/-- C9, amended: a download of a valid name whose open fails, because neither a
file nor a directory is at the joined path or because the file system refuses,
returns `codes.NotFound` once the ticket is granted and sends no chunk: the
calls made are the acquisition, the validation, the failed open and the
release. -/
theorem DownloadFile_not_found (env : DownloadEnv) (name : String) (w : World)
    (hacq : env.acquire = true) (hname : CheckFileName name = none)
    (hopen : (w.files (filepath.Join storageDir name) = none ∧ env.isDir = false) ∨
      env.openFails = true) :
    ∃ w1, DownloadFile env ⟨name⟩ w = some (.errorf .NotFound, w1, []) ∧
      w.since w1 = [.acquire .download true, .checkFileName name,
        .osOpen (filepath.Join storageDir name) false, .release .download] ∧
      w1.files = w.files := by
  have hres : ∀ v : World, v.files = w.files →
      (os.Open env.openFails env.isDir (filepath.Join storageDir name) v) =
        (.error .io, v.emit (.osOpen (filepath.Join storageDir name) false)) := by
    intro v hv
    unfold os.Open
    rw [hv]
    rcases hopen with h | h
    · rw [h.1, h.2]
      rfl
    · cases w.files (filepath.Join storageDir name) <;> simp [h]
  simp only [DownloadFile, Weighted.Acquire, hacq, if_true, hname]
  rw [hres _ (by simp [World.emit])]
  refine ⟨_, rfl, ?_, ?_⟩
  · simp [World.since, World.emit]
  · simp [World.emit]

theorem DownloadFile_not_found_witness :
    ∃ w1, DownloadFile ⟨true, false, [], [], false⟩ ⟨"missing.txt"⟩
        (World.init (fun _ => none)) = some (.errorf .NotFound, w1, []) ∧
      (World.init (fun _ => none)).since w1 = [.acquire .download true,
        .checkFileName "missing.txt",
        .osOpen (filepath.Join storageDir "missing.txt") false, .release .download] ∧
      w1.files = (World.init (fun _ => none)).files :=
  DownloadFile_not_found ⟨true, false, [], [], false⟩ "missing.txt"
    (World.init (fun _ => none)) rfl (by decide) (Or.inl ⟨rfl, rfl⟩)

/-- C6: round trip. After an upload of one or more chunks under a valid name in
which nothing fails, a download of the same name with its ticket granted and
the file opened returns; every chunk it sends has at most 1024 bytes; when it
returns `nil` the chunks sent, in order, add up to the concatenation of the
uploaded payloads; and it returns `nil` when no read or send fails. -/
theorem upload_download_round_trip (uenv : UploadEnv) (denv : DownloadEnv) (w : World)
    (first : UploadRequest) (more : List UploadRequest)
    (hacq : uenv.acquire = true) (hrecv : uenv.recv = (first :: more).map .msg)
    (hname : CheckFileName first.Filename = none) (hcreate : uenv.createFails = false)
    (hwrite : ∀ x ∈ uenv.writes, x = none)
    (hdacq : denv.acquire = true) (hopen : denv.openFails = false) :
    (UploadFile uenv w).1 = .sendAndClose uploadDone ∧
    ∃ r w2 sent,
      DownloadFile denv ⟨first.Filename⟩ (UploadFile uenv w).2 = some (r, w2, sent) ∧
      (∀ c ∈ sent, c.length ≤ 1024) ∧
      (r = .nil → sent.flatten = ((first :: more).map (·.Chunk)).flatten) ∧
      ((∀ b ∈ denv.reads, b = false) → (∀ b ∈ denv.sends, b = false) → r = .nil) := by
  obtain ⟨hup, hfile, -⟩ := UploadFile_clean_run uenv w first more hacq hrecv hname hcreate hwrite
  obtain ⟨r, evs, sent, hdown, -, hlen, hnil, hok⟩ :=
    DownloadFile_opened denv first.Filename (UploadFile uenv w).2 _ hdacq hname hfile hopen
  exact ⟨hup, r, _, sent, hdown, hlen, hnil, hok⟩

theorem upload_download_round_trip_witness :
    (UploadFile ⟨true, [.msg ⟨"a.txt", [104, 101, 108]⟩, .msg ⟨"a.txt", [108, 111]⟩], false, []⟩
        (World.init (fun _ => none))).1 = .sendAndClose uploadDone ∧
    ∃ r w2 sent,
      DownloadFile ⟨true, false, [], [], false⟩ ⟨"a.txt"⟩
        (UploadFile ⟨true, [.msg ⟨"a.txt", [104, 101, 108]⟩, .msg ⟨"a.txt", [108, 111]⟩],
          false, []⟩ (World.init (fun _ => none))).2 = some (r, w2, sent) ∧
      (∀ c ∈ sent, c.length ≤ 1024) ∧
      (r = .nil → sent.flatten = [104, 101, 108, 108, 111]) ∧
      ((∀ b ∈ ([] : List Bool), b = false) → (∀ b ∈ ([] : List Bool), b = false) → r = .nil) :=
  upload_download_round_trip
    ⟨true, [.msg ⟨"a.txt", [104, 101, 108]⟩, .msg ⟨"a.txt", [108, 111]⟩], false, []⟩
    ⟨true, false, [], [], false⟩ (World.init (fun _ => none))
    ⟨"a.txt", [104, 101, 108]⟩ [⟨"a.txt", [108, 111]⟩] rfl rfl (by decide) rfl (by simp) rfl rfl

/-- C7: in `UploadFile`, `ListFiles` and `DownloadFile`, whatever the outside
does, a granted acquisition is followed by exactly one release of the same
limiter before the handler returns and a refused one by none; each limiter
holds as many tickets afterwards as before, and the two other limiters are
never called. `DownloadFile` returns on every input. -/
theorem tickets_paired_on_every_path :
    (∀ (env : UploadEnv) (w : World),
      TicketsPaired .upload env.acquire w (UploadFile env w).2) ∧
    (∀ (env : ListEnv) (w : World),
      TicketsPaired .list env.acquire w (ListFiles env w).2) ∧
    (∀ (env : DownloadEnv) (req : DownloadRequest) (w : World),
      ∃ r, DownloadFile env req w = some r ∧
        TicketsPaired .download env.acquire w r.2.1) := by
  refine ⟨fun env w => ?_, fun env w => ?_, fun env req w => ?_⟩
  · obtain ⟨files1, body, hshape, hbody, -⟩ := UploadFile_shape env w
    rw [hshape]
    exact TicketsPaired_of_shape .upload env.acquire w files1 body hbody
  · rw [ListFiles_shape]
    exact TicketsPaired_of_shape .list env.acquire w w.files [] (by simp)
  · obtain ⟨r, body, sent, hdown, hbody⟩ := DownloadFile_shape env req w
    exact ⟨_, hdown, TicketsPaired_of_shape .download env.acquire w w.files body hbody⟩

/-- C8: within one upload the target is bound by the first received chunk only.
The destination file is created at most once; replacing the filename fields of
the later messages by any other names changes neither the return value nor the
resulting state; every write goes to the path joined from the storage root and
the first message's filename; and when the ticket is granted, the first name is
valid and its file is created, the calls made are the acquisition, one
validation, one creation, then one write per accepted payload, in order and all
through the one handle at that path, then its close and the release, and the
file holds those payloads appended. On a stream without failure the accepted
payloads are the payloads of all messages. -/
theorem filename_bound_by_first_chunk :
    (∀ (env : UploadEnv) (w : World),
      (w.since (UploadFile env w).2).countP Event.isCreate ≤ 1) ∧
    (∀ (env : UploadEnv) (first : RecvResult) (rest : List RecvResult) (names : List String)
        (w : World),
      UploadFile { env with recv := first :: renameLater rest names } w =
        UploadFile { env with recv := first :: rest } w) ∧
    (∀ (env : UploadEnv) (w : World) (p : String) (d : Bytes),
      Event.fileWrite p d ∈ w.since (UploadFile env w).2 →
        ∃ req rest, env.recv = .msg req :: rest ∧
          p = filepath.Join storageDir req.Filename) ∧
    (∀ (env : UploadEnv) (w : World) (req : UploadRequest) (rest : List RecvResult),
      env.acquire = true → env.recv = .msg req :: rest →
      CheckFileName req.Filename = none → env.createFails = false →
        w.since (UploadFile env w).2 =
          .acquire .upload true :: .checkFileName req.Filename ::
            .osCreate (filepath.Join storageDir req.Filename) true ::
              ((acceptedWrites env.recv env.writes).map
                  (.fileWrite (filepath.Join storageDir req.Filename)) ++
                [.fileClose (filepath.Join storageDir req.Filename), .release .upload]) ∧
        (UploadFile env w).2.files (filepath.Join storageDir req.Filename) =
          some (acceptedWrites env.recv env.writes).flatten) ∧
    (∀ (reqs : List UploadRequest) (faults : List (Option Nat)),
      (∀ x ∈ faults, x = none) →
        acceptedWrites (reqs.map .msg) faults = reqs.map (·.Chunk)) := by
  refine ⟨fun env w => ?_, fun env first rest names w => ?_, fun env w p d hmem => ?_,
    fun env w req rest hacq hrecv hname hcreate =>
      UploadFile_accepted env w req rest hacq hrecv hname hcreate,
    acceptedWrites_clean⟩
  · obtain ⟨files1, body, hshape, -, hcreate, -⟩ := UploadFile_shape env w
    rw [hshape, since_eq w _ _ rfl]
    cases env.acquire with
    | false => simp [List.countP_cons, Event.isCreate]
    | true =>
      simpa [List.countP_cons, List.countP_append, Event.isCreate] using hcreate
  · simp only [UploadFile, uploadLoop_start_renameLater]
  · obtain ⟨files1, body, hshape, -, -, hwrite⟩ := UploadFile_shape env w
    rw [hshape, since_eq w _ _ rfl] at hmem
    cases hacq : env.acquire with
    | false => simp [hacq] at hmem
    | true =>
      simp only [hacq, if_true, List.mem_cons, List.mem_append, List.not_mem_nil,
        or_false] at hmem
      rcases hmem with (h | h) | h
      · cases h
      · exact hwrite p d h
      · cases h

theorem filename_bound_by_first_chunk_witness :
    (World.init (fun _ => none)).since
        (UploadFile ⟨true, [.msg ⟨"a.txt", [104, 101, 108]⟩, .msg ⟨"b.txt", [108, 111]⟩],
          false, []⟩ (World.init (fun _ => none))).2 =
      [.acquire .upload true, .checkFileName "a.txt",
        .osCreate (filepath.Join storageDir "a.txt") true,
        .fileWrite (filepath.Join storageDir "a.txt") [104, 101, 108],
        .fileWrite (filepath.Join storageDir "a.txt") [108, 111],
        .fileClose (filepath.Join storageDir "a.txt"), .release .upload] ∧
    (UploadFile ⟨true, [.msg ⟨"a.txt", [104, 101, 108]⟩, .msg ⟨"b.txt", [108, 111]⟩],
      false, []⟩ (World.init (fun _ => none))).2.files (filepath.Join storageDir "a.txt") =
      some [104, 101, 108, 108, 111] :=
  filename_bound_by_first_chunk.2.2.2.1
    ⟨true, [.msg ⟨"a.txt", [104, 101, 108]⟩, .msg ⟨"b.txt", [108, 111]⟩], false, []⟩
    (World.init (fun _ => none)) ⟨"a.txt", [104, 101, 108]⟩ [.msg ⟨"b.txt", [108, 111]⟩]
    rfl rfl (by decide) rfl

/-- C10: an upload whose stream ends before any message, with the ticket
granted, returns the result of `SendAndClose` on the success acknowledgment; it
calls nothing but the acquisition and the release, so no name is validated and
no file is created or written, and the stored files are unchanged. -/
theorem UploadFile_empty_stream (createFails : Bool) (writes : List (Option Nat))
    (w : World) :
    (UploadFile ⟨true, [], createFails, writes⟩ w).1 = .sendAndClose uploadDone ∧
    uploadDone.Message = "Файл успешно загружен" ∧
    w.since (UploadFile ⟨true, [], createFails, writes⟩ w).2 =
      [.acquire .upload true, .release .upload] ∧
    (UploadFile ⟨true, [], createFails, writes⟩ w).2.files = w.files := by
  refine ⟨rfl, rfl, ?_, rfl⟩
  simp [UploadFile, Weighted.Acquire, uploadLoop, World.emit, World.since]

end GrpcServ
